import Mathlib

/-!
Verification of the world-mode progression engine of `core/world.py`
(classes `Step`, `Map`, `UserMap`, `Stamina`, `UserStamina`,
`WorldSkillMixin`, `BaseWorldPlay`, `WorldPlay`, `BeyondWorldPlay`).

The embedding is shallow: Python floats that only ever hold exact
decimal/integer arithmetic are modelled as rationals, database rows as
explicit records, and raised exceptions as `Except` errors.  `UserMap.climb`
is embedded for maps other than `lephon_nell` (so the hot-swap block at
lines 470-498 of `world.py` is skipped and `self.lephon_active` remains
`False`); the user's `lephon_nell_state`, which that method reads and which
still drives the phase teleports and the final-phase recoil on every map,
is passed as an explicit argument.
-/

namespace Arcaea

/-- A map tile (`Step` in `world.py`), restricted to the fields read by
`UserMap.climb` and by the `luna_uncap` skill hook. -/
structure Step where
  capture : ℚ
  step_type : List String := []
  restrict_id : Option String := none
  restrict_type : Option String := none
  deriving DecidableEq, Inhabited

/-- Map data (`Map` in `world.py`) restricted to what `UserMap.climb` and
`UserMap.unlock` read.  Only maps whose `map_id` is not `lephon_nell` are
modelled (see the file comment). -/
structure WorldMap where
  is_beyond : Bool
  beyond_health : ℚ := 0
  steps : List Step
  require_type : String := ""
  deriving DecidableEq, Inhabited

/-- The per-`(user, map)` row of the `user_world` table:
`(curr_position, curr_capture, is_locked)`. -/
structure UserMapState where
  curr_position : ℕ
  curr_capture : ℚ
  is_locked : Bool
  deriving DecidableEq, Inhabited

/-- The fields of a `UserPlay` that `UserMap.climb` consults. -/
structure Play where
  clear_type : ℕ
  nell_toggle : Bool := false
  deriving DecidableEq, Inhabited

/-- Exceptions that `UserMap.climb` can raise: `MapLocked`, `InputError`,
and Python's own `IndexError` on an out-of-range list subscript. -/
inductive ClimbError where
  | mapLocked
  | inputError
  | indexError
  deriving DecidableEq, Inhabited

/-- The normal-map traversal loop of `UserMap.climb` (`world.py` lines
594-616), with an explicit fuel argument standing for the bound implicit in
`i` increasing towards `step_count`.  State `(i, j, t)` is
`(position, capture within tile, remaining budget)`; the loop exits when the
budget is spent, the tiles run out, or the current tile is a wall
(`wall_impossible`, or `wall_nell` while `lephon_active` is false). -/
def climbLoop (steps : List Step) (lephon_active : Bool) :
    ℕ → ℕ → ℚ → ℚ → ℕ × ℚ
  | 0, i, j, _ => (i, j)
  | fuel + 1, i, j, t =>
    if t ≤ 0 ∨ steps.length ≤ i then (i, j)
    else
      let x := steps.getD i default
      if x.step_type ≠ [] ∧
          ("wall_impossible" ∈ x.step_type ∨
            (lephon_active = false ∧ "wall_nell" ∈ x.step_type)) then (i, j)
      else
        let dt := x.capture - j
        if dt > t then (i, j + t)
        else climbLoop steps lephon_active fuel (i + 1) 0 (t - dt)

/-- The beyond-map position scan of `UserMap.climb` (`world.py` lines
580-588): consume budget `t` tile by tile from the front of the map,
stopping at the first tile whose capture is larger than the remaining
budget.  Fuel as in `climbLoop`. -/
def beyondLoop (steps : List Step) : ℕ → ℕ → ℚ → ℕ
  | 0, i, _ => i
  | fuel + 1, i, t =>
    if steps.length ≤ i ∨ t ≤ 0 then i
    else
      let dt := (steps.getD i default).capture
      if dt > t then i
      else beyondLoop steps fuel (i + 1) (t - dt)

/-- Python list subscripting `steps[i]` for a possibly negative index:
`-1` is the last element, and an index outside `[-len, len)` raises
`IndexError`. -/
def pyIndex (steps : List Step) (i : ℤ) : Except ClimbError Step :=
  if 0 ≤ i then
    if i < (steps.length : ℤ) then .ok (steps.getD i.toNat default)
    else .error .indexError
  else
    if -(steps.length : ℤ) ≤ i then
      .ok (steps.getD (steps.length - (-i).toNat) default)
    else .error .indexError

/-- The final-phase failure recoil loop of `UserMap.climb` (`world.py`
lines 557-563): `remain_tiles` times, subtract the capture of tile `i`
from `j` and decrement `i`.  The subscript `steps[i]` is Python indexing,
so it wraps around for small negative `i` and raises for large ones. -/
def recoilLoop (steps : List Step) : ℕ → ℤ → ℚ → Except ClimbError (ℤ × ℚ)
  | 0, i, j => .ok (i, j)
  | k + 1, i, j =>
    match pyIndex steps i with
    | .error e => .error e
    | .ok st => recoilLoop steps k (i - 1) (j - st.capture)

/-- Embedding of `UserMap.climb(step_value, user_play)` (`world.py` lines 454-622) for a
loaded map other than `lephon_nell` (hence `self.lephon_active = False`
throughout, the nell-toggle jump at lines 505-523 is unreachable, and the
user's `lephon_nell_state` is not advanced).  `lephon_state` is
`self.user.lephon_nell_state`; `self.lephon_final` is `lephon_state = 3`
as set by the preceding `select`. -/
def climb (m : WorldMap) (lephon_state : ℕ) (p : Play) (step_value : ℚ)
    (s : UserMapState) : Except ClimbError UserMapState :=
  if s.is_locked then .error .mapLocked
  else if m.is_beyond = true ∧ step_value < 0 then .error .inputError
  else if m.steps.length ≤ s.curr_position then .error .indexError
  else
    let cur_step := m.steps.getD s.curr_position default
    let sv1 :=
      if cur_step.step_type ≠ [] ∧ lephon_state ≠ 3 ∧
          "wall_impossible" ∈ cur_step.step_type then 0 else step_value
    let sv2 :=
      if cur_step.step_type ≠ [] ∧ lephon_state = 3 ∧
          "special_lament_rain" ∈ cur_step.step_type then 0 else sv1
    if lephon_state = 1 then .ok ⟨44, 1, s.is_locked⟩
    else if lephon_state = 2 then .ok ⟨200, 1, s.is_locked⟩
    else if lephon_state = 3 ∧ s.curr_position = 200 then .ok ⟨65, 1, s.is_locked⟩
    else if lephon_state = 3 then
      if p.clear_type = 0 then
        match recoilLoop m.steps 13 (s.curr_position : ℤ) s.curr_capture with
        | .error e => .error e
        | .ok (i, j) =>
          if i < 0 then .ok ⟨0, 0, s.is_locked⟩
          else .ok ⟨i.toNat, j, s.is_locked⟩
      else .ok s
    else if m.is_beyond then
      let cap' :=
        if m.beyond_health - s.curr_capture ≥ sv2 then s.curr_capture + sv2
        else m.beyond_health
      let i := beyondLoop m.steps (m.steps.length + 1) 0 (s.curr_capture + sv2)
      if m.steps.length ≤ i then .ok ⟨m.steps.length - 1, cap', s.is_locked⟩
      else .ok ⟨i, cap', s.is_locked⟩
    else
      let r := climbLoop m.steps false (m.steps.length + 1) s.curr_position
        s.curr_capture sv2
      if m.steps.length ≤ r.1 then .ok ⟨m.steps.length - 1, 0, s.is_locked⟩
      else .ok ⟨r.1, r.2, s.is_locked⟩

/-- Embedding of `UserMap.unlock` (`world.py` lines 433-452): a locked map is unlocked at
`(0, 0)`, but re-locked if its requirement is a `pack`/`single` item the
user does not own; an already unlocked map is left untouched. -/
def unlockOp (m : WorldMap) (item_owned : Bool) (s : UserMapState) :
    UserMapState :=
  if s.is_locked then
    ⟨0, 0, decide ((m.require_type = "pack" ∨ m.require_type = "single") ∧
      item_owned = false)⟩
  else s

/-- A tile with the given capture and no tags, items or restrictions. -/
def Step.plain (c : ℚ) : Step := { capture := c }

example :
    climb ⟨false, 0, [.plain 2, .plain 3, .plain 4], ""⟩ 0 ⟨1, false⟩ 2
      ⟨0, 0, false⟩ = .ok ⟨1, 0, false⟩ := by
  norm_num [climb, climbLoop, Step.plain]

example :
    climb ⟨false, 0, [.plain 2, .plain 3, .plain 4], ""⟩ 0 ⟨1, false⟩ (5/2)
      ⟨0, 0, false⟩ = .ok ⟨1, 1/2, false⟩ := by
  norm_num [climb, climbLoop, Step.plain]

example :
    climb ⟨true, 100, [.plain 2, .plain 3, .plain 4], ""⟩ 0 ⟨1, false⟩ 4
      ⟨0, 1, false⟩ = .ok ⟨2, 5, false⟩ := by
  norm_num [climb, beyondLoop, Step.plain]

/-! Spec-side definitions.

The following definitions are written from the wording of the
specification (spec.md §4.2 steps 6-7 and §8), to be compared with the
embedding of the code above. -/

/-- Spec wording for the normal-map loop (claim C1): starting at
`(prev_position, prev_capture)` with budget `t := step_value`, repeatedly:
if the current step's `step_type` contains `wall_impossible`, or
`wall_nell` while not `lephon_active`, stop in place; otherwise, with
`dt := steps[i].capture - j`, if `dt > t` then `j += t; t := 0`, else
`t -= dt; j := 0; i += 1`. -/
def specNormalLoop (steps : List Step) (lephon_active : Bool) :
    ℕ → ℕ → ℚ → ℚ → ℕ × ℚ
  | 0, i, j, _ => (i, j)
  | fuel + 1, i, j, t =>
    if t ≤ 0 ∨ steps.length ≤ i then (i, j)
    else if "wall_impossible" ∈ (steps.getD i default).step_type ∨
        (lephon_active = false ∧
          "wall_nell" ∈ (steps.getD i default).step_type) then (i, j)
    else
      let dt := (steps.getD i default).capture - j
      if dt > t then (i, j + t)
      else specNormalLoop steps lephon_active fuel (i + 1) 0 (t - dt)

/-- Spec wording for the whole normal-map climb (claim C1): run
`specNormalLoop`; on exit set `(step_count - 1, 0)` if `i ≥ step_count`,
else `(i, j)`. -/
def specNormalClimb (steps : List Step) (pos : ℕ) (cap sv : ℚ) : ℕ × ℚ :=
  let r := specNormalLoop steps false (steps.length + 1) pos cap sv
  if steps.length ≤ r.1 then (steps.length - 1, 0) else r

/-- Spec wording for the beyond-map landing position (claim C2): consume
the budget across successive steps starting at index 0; land on the first
step whose running capture sum exceeds the budget, or on the last step if
the step list is exhausted. -/
def specBeyondGo (budget : ℚ) : List Step → ℕ → ℚ → ℕ
  | [], i, _ => i - 1
  | st :: rest, i, acc =>
    if acc + st.capture > budget then i
    else specBeyondGo budget rest (i + 1) (acc + st.capture)

/-- Spec wording, entry point: scan from index 0 with an empty running
sum. -/
def specBeyondPosition (steps : List Step) (budget : ℚ) : ℕ :=
  specBeyondGo budget steps 0 0

/-! Stamina (`Stamina` in `world.py`, lines 631-667).

`Constant.MAX_STAMINA` and `Constant.STAMINA_RECOVER_TICK` live in
`core/constant.py`, which is not part of the sources; both are kept as
parameters.  Wall-clock time `int(time() * 1000)` is a parameter `now`. -/

/-- Python's built-in `round`: round half to even. -/
def pythonRound (q : ℚ) : ℤ :=
  let f := ⌊q⌋
  let r := q - f
  if r < 1/2 then f
  else if 1/2 < r then f + 1
  else if Even f then f else f + 1

/-- The persistent fields of a `Stamina` object: the private `__stamina`
and `max_stamina_ts`. -/
structure StaminaState where
  hidden_stamina : ℤ
  max_stamina_ts : ℤ
  deriving DecidableEq, Inhabited

/-- The `stamina` property setter (`world.py` lines 660-667):
`__stamina := round(value)` and
`max_stamina_ts := now - (__stamina - MAX_STAMINA) * STAMINA_RECOVER_TICK`. -/
def setStamina (maxStamina tick now : ℤ) (value : ℚ) : StaminaState :=
  let h := pythonRound value
  ⟨h, now - (h - maxStamina) * tick⟩

/-- The `stamina` property getter (`world.py` lines 644-658):
derive `round(MAX - (max_stamina_ts - now) / TICK)`, clamping at `MAX`
unless the stored raw value exceeds `MAX` (overfill persists). -/
def getStamina (maxStamina tick now : ℤ) (st : StaminaState) : ℤ :=
  let s := pythonRound ((maxStamina : ℚ) -
    ((st.max_stamina_ts : ℚ) - (now : ℚ)) / (tick : ℚ))
  if s ≥ maxStamina then
    if st.hidden_stamina ≥ maxStamina then st.hidden_stamina else maxStamina
  else s

/-! Beyond boost gauge (`world.py` lines 1043-1046, 1229-1238,
1326-1337).

`BaseWorldPlay.after_update` (lines 1108-1137) distributes rewards,
applies `plusstamina`, upgrades the character and wraps repeatable maps;
it never touches `user.beyond_boost_gauge`.  The gauge-relevant effect of
each variant's `after_update` is isolated below.  The addition
`2.45 * rating ** 0.5 + 27` is linear in the float square root of the
play rating, which is passed in as `sqrt_rating`. -/

/-- Embedding of `BaseWorldPlay.beyond_boost_gauge_addition` (lines 1043-1046) as a
function of `rating ** 0.5`. -/
def beyond_boost_gauge_addition (sqrt_rating : ℚ) : ℚ :=
  2.45 * sqrt_rating + 27

/-- Gauge effect of `WorldPlay.after_update` (the normal variant, lines
1229-1238): add `beyond_boost_gauge_addition` and cap at 200. -/
def worldPlayAfterUpdateGauge (gauge addition : ℚ) : ℚ :=
  min (gauge + addition) 200

/-- Gauge effect of `BeyondWorldPlay.after_update` (lines 1326-1337):
after `super().after_update()` (which leaves the gauge unchanged), a
nonzero `beyond_boost_gauge_usage` not exceeding the gauge is subtracted,
snapping results of magnitude at most `1e-5` to `0`. -/
def beyondAfterUpdateGauge (gauge usage : ℚ) : ℚ :=
  if usage ≠ 0 ∧ usage ≤ gauge then
    let g := gauge - usage
    if |g| ≤ 1/100000 then 0 else g
  else gauge

/-! The `luna_uncap` post-climb hook (`world.py` lines 790-797).

The hook reads the first climbed step `x`; when `x.restrict_id` and
`x.restrict_type` are both truthy, the source executes
`self.self.character_bonus_progress_normalized = ...`, and a
`BaseWorldPlay` instance has no attribute `self`, so Python raises
`AttributeError` before any bonus is set or any reclimb happens. -/

/-- Python truthiness of an optional string: `None` and `""` are falsy. -/
def truthyStr : Option String → Bool
  | none => false
  | some s => s ≠ ""

/-- Errors a skill hook can raise. -/
inductive HookError where
  | attributeError
  deriving DecidableEq, Inhabited

/-- Embedding of `WorldSkillMixin._luna_uncap`, as a function of the first climbed step
(`self.user.current_map.steps_for_climbing[0]`).  Returns the optional
bonus the hook manages to record. -/
def lunaUncap (first_step : Step) : Except HookError (Option ℚ) :=
  if truthyStr first_step.restrict_id = true ∧
      truthyStr first_step.restrict_type = true then
    .error .attributeError
  else .ok none

/-! Embedding of `UserStamina.select` (`world.py` lines 682-691).

The query string at line 685 is
`select max_stamina_ts, staminafrom user where user_id = :a`: the missing
space glues `stamina` and `from` into the single identifier
`staminafrom`, so the statement has no `FROM` clause and no such column
exists; sqlite raises an `OperationalError` for every call, before the
`fetchone`/`NoData` logic can run.  The SQL engine is modelled just far
enough to observe this: a query whose whitespace-separated words do not
include `from` never reaches the table. -/

/-- The exact query string of `world.py` line 685. -/
def userStaminaSelectQuery : String :=
  "select max_stamina_ts, staminafrom user where user_id = :a"

/-- Split a character list into maximal space-free words. -/
def splitWordsAux : List Char → List Char → List (List Char)
  | [], acc => if acc = [] then [] else [acc.reverse]
  | c :: cs, acc =>
    if c = ' ' then
      if acc = [] then splitWordsAux cs []
      else acc.reverse :: splitWordsAux cs []
    else splitWordsAux cs (c :: acc)

/-- The whitespace-separated words of a query string. -/
def sqlWords (s : String) : List (List Char) := splitWordsAux s.data []

/-- Errors `UserStamina.select` can produce: the sqlite
`OperationalError` for a malformed statement, and the `NoData` the method
raises when `fetchone` returns nothing. -/
inductive DbError where
  | operationalError
  | noData
  deriving DecidableEq, Inhabited

/-- Embedding of `UserStamina.select` against a `user` table given as a list of
`(user_id, (max_stamina_ts, stamina))` rows.  A select statement without a
`FROM` keyword errors out in the engine; otherwise the first matching row
is loaded, and a missing row raises `NoData`. -/
def userStaminaSelect (db : List (ℕ × ℤ × ℤ)) (user_id : ℕ) :
    Except DbError (ℤ × ℤ) :=
  if ((sqlWords userStaminaSelectQuery).contains ("from".data)) = false then
    .error .operationalError
  else
    match db.find? (fun r => r.1 = user_id) with
    | none => .error .noData
    | some r => .ok r.2

/-! Reachability and the state invariant (claim C3). -/

/-- Map-content sanity for the invariant claims: at least one step, every
capture positive, nonnegative beyond health. -/
def WellFormedMap (m : WorldMap) : Prop :=
  0 < m.steps.length ∧ (∀ st ∈ m.steps, 0 < st.capture) ∧ 0 ≤ m.beyond_health

/-- The invariant of claim C3: `0 ≤ curr_position < step_count`,
`curr_capture ≥ 0`, and on normal maps `curr_capture <
steps[curr_position].capture` unless `curr_position = step_count - 1`. -/
def StateInv (m : WorldMap) (s : UserMapState) : Prop :=
  s.curr_position < m.steps.length ∧ 0 ≤ s.curr_capture ∧
    (m.is_beyond = false →
      (s.curr_position = m.steps.length - 1 ∨
        s.curr_capture < (m.steps.getD s.curr_position default).capture))

/-- States of one `(user, map)` pair reachable from the lazily-initialized
row `(0, 0, locked)` by the public operations.  `select` re-reads the
existing row without changing it, so it contributes no transition beyond
the initialization; `reclimb` re-runs `climb` from the pre-climb state,
which is itself reachable, so it is subsumed by the `climbStep`
constructor.  The user's `lephon_nell_state` is mutated only by plays on
`lephon_nell`, hence from this map's viewpoint it is a free input of each
climb. -/
inductive Reachable (m : WorldMap) : UserMapState → Prop where
  | init : Reachable m ⟨0, 0, true⟩
  | unlockStep (s : UserMapState) (owned : Bool) :
      Reachable m s → Reachable m (unlockOp m owned s)
  | climbStep (s s' : UserMapState) (lephon_state : ℕ) (p : Play) (sv : ℚ) :
      Reachable m s → climb m lephon_state p sv s = .ok s' → Reachable m s'

/-- Reachability as in `Reachable`, but with every climb performed while
the user's `lephon_nell_state` is `0` (no `lephon_nell` interference). -/
inductive ReachableNoLephon (m : WorldMap) : UserMapState → Prop where
  | init : ReachableNoLephon m ⟨0, 0, true⟩
  | unlockStep (s : UserMapState) (owned : Bool) :
      ReachableNoLephon m s → ReachableNoLephon m (unlockOp m owned s)
  | climbStep (s s' : UserMapState) (p : Play) (sv : ℚ) :
      ReachableNoLephon m s → climb m 0 p sv s = .ok s' →
      ReachableNoLephon m s'

/-! Theorems. -/

/-- Python `round` is the identity on integers. -/
lemma pythonRound_intCast (n : ℤ) : pythonRound (n : ℚ) = n := by
  simp only [pythonRound, Int.floor_intCast, sub_self]
  norm_num

/-- C8: for every integer value `v` (including `v` greater than
`MAX_STAMINA`) and every fixed current time, assigning `stamina := v`
through the setter and reading the `stamina` property back at the same
time returns `v`: the setter rewrites `max_stamina_ts` so that the
derived value round-trips, and overfill above `MAX_STAMINA` is preserved
by the clamping rule. -/
theorem C8_stamina_roundtrip (maxStamina tick now v : ℤ) (htick : 0 < tick) :
    getStamina maxStamina tick now
      (setStamina maxStamina tick now (v : ℚ)) = v := by
  have ht : (tick : ℚ) ≠ 0 := by
    exact_mod_cast htick.ne'
  have hderive : ((maxStamina : ℚ) -
      (((now - (v - maxStamina) * tick : ℤ) : ℚ) - (now : ℚ)) / (tick : ℚ)) =
      ((v : ℤ) : ℚ) := by
    push_cast
    field_simp
    ring_nf
  simp only [getStamina, setStamina, pythonRound_intCast, hderive]
  by_cases hv : maxStamina ≤ v
  · simp [hv, ge_iff_le]
  · simp [ge_iff_le, hv, le_of_not_le hv]

/-- C8, witness: the round-trip at `MAX_STAMINA = 12`,
`STAMINA_RECOVER_TICK = 1800000`, `now = 1700000000000`, `v = 20`. -/
theorem C8_stamina_roundtrip_witness :
    (0 : ℤ) < 1800000 ∧
      getStamina 12 1800000 1700000000000
        (setStamina 12 1800000 1700000000000 (20 : ℚ)) = 20 :=
  ⟨by norm_num, C8_stamina_roundtrip 12 1800000 1700000000000 20 (by norm_num)⟩

/-- C5: `UserStamina.select` never reaches its `NoData` logic at all: the
query string of `world.py` line 685 lost the space between `stamina` and
`from`, so the statement has no `FROM` clause and the database raises an
`OperationalError` on every call, whether or not the user row exists. -/
theorem C5_user_stamina_select_bug (db : List (ℕ × ℤ × ℤ)) (user_id : ℕ) :
    userStaminaSelect db user_id = .error .operationalError := by
  have hq : ((sqlWords userStaminaSelectQuery).contains ("from".data)) = false := by
    decide
  simp only [userStaminaSelect, hq]
  simp

/-- C5, evaluation at the failing input: user 1 exists in the table with
`(max_stamina_ts, stamina) = (1700000000000, 6)`, yet `select` errors
instead of loading the pair. -/
theorem C5_user_stamina_select_bug_witness :
    userStaminaSelect [(1, (1700000000000, 6))] 1 = .error .operationalError :=
  C5_user_stamina_select_bug [(1, (1700000000000, 6))] 1

/-- C6: the `luna_uncap` post-climb hook crashes on exactly the plays it
was meant to reward: when the first climbed step carries both a
`restrict_id` and a `restrict_type`, `world.py` line 794 evaluates
`self.self.character_bonus_progress_normalized`, and the play object has
no attribute `self`, so `AttributeError` is raised before any bonus is
set or any reclimb happens; on every other step the hook is a no-op as
the claim says. -/
theorem C6_luna_uncap_bug :
    lunaUncap ⟨1, [], some "tempestissimo", some "song_id"⟩ =
      .error .attributeError ∧
    lunaUncap ⟨1, [], none, none⟩ = .ok none := by
  constructor
  · simp [lunaUncap, truthyStr]
  · simp [lunaUncap, truthyStr]

/-- C4, counterexample: a beyond play with `rating = 0` (so
`beyond_boost_gauge_addition = 27`), gauge `0` and zero usage.  The claim
predicts the gauge rises to `min(0 + 27, 200) = 27` after the climb, but
`BeyondWorldPlay.after_update` leaves it at `0`: the addition is performed
by the normal variant `WorldPlay.after_update`, which `BeyondWorldPlay`
does not inherit from. -/
theorem C4_beyond_gauge_cex :
    beyondAfterUpdateGauge 0 0 = 0 ∧
      beyondAfterUpdateGauge 0 0 ≠
        worldPlayAfterUpdateGauge 0 (beyond_boost_gauge_addition 0) := by
  constructor
  · simp [beyondAfterUpdateGauge]
  · norm_num [beyondAfterUpdateGauge, worldPlayAfterUpdateGauge,
      beyond_boost_gauge_addition]

/-- C4, amended: `BeyondWorldPlay.after_update` never increases the
user's `beyond_boost_gauge`; it only subtracts a nonzero
`beyond_boost_gauge_usage` not exceeding the gauge (snapping a result of
magnitude at most `1e-5` to `0`) and leaves the gauge alone otherwise.
The `2.45 * sqrt(rating) + 27` addition capped at `200` is applied by the
normal variant `WorldPlay.after_update` instead. -/
theorem C4_beyond_gauge_amended (g u sq : ℚ) (hu : 0 ≤ u) :
    beyondAfterUpdateGauge g u ≤ g ∧
    (u = 0 → beyondAfterUpdateGauge g u = g) ∧
    (0 < u → u ≤ g →
      beyondAfterUpdateGauge g u =
        if |g - u| ≤ 1/100000 then 0 else g - u) ∧
    worldPlayAfterUpdateGauge g (beyond_boost_gauge_addition sq) =
      min (g + (2.45 * sq + 27)) 200 := by
  refine ⟨?_, ?_, ?_, ?_⟩
  · by_cases h : u ≠ 0 ∧ u ≤ g
    · have h0 : 0 < u := lt_of_le_of_ne hu (Ne.symm h.1)
      have hg : 0 < g := lt_of_lt_of_le h0 h.2
      simp only [beyondAfterUpdateGauge, if_pos h]
      split
      · exact le_of_lt hg
      · linarith
    · simp [beyondAfterUpdateGauge, h]
  · intro h0
    simp [beyondAfterUpdateGauge, h0]
  · intro h0 hle
    simp [beyondAfterUpdateGauge, h0.ne', hle]
  · simp [worldPlayAfterUpdateGauge, beyond_boost_gauge_addition]

/-- C4, witness: gauge `100`, usage `30`, `sqrt(rating) = 2` gives gauge
`70` after the beyond play's `after_update`. -/
theorem C4_beyond_gauge_witness : beyondAfterUpdateGauge 100 30 = 70 := by
  have h := (C4_beyond_gauge_amended 100 30 2 (by norm_num)).2.2.1
    (by norm_num) (by norm_num)
  rw [h]
  norm_num

/-- A loop of `recoilLoop` only ever raises `IndexError`. -/
lemma recoilLoop_error_eq (steps : List Step) :
    ∀ (k : ℕ) (i : ℤ) (j : ℚ) (e : ClimbError),
      recoilLoop steps k i j = .error e → e = .indexError := by
  intro k
  induction k with
  | zero =>
    intro i j e h
    simp [recoilLoop] at h
  | succ k ih =>
    intro i j e h
    rw [recoilLoop] at h
    cases hp : pyIndex steps i with
    | error e' =>
      rw [hp] at h
      have he' : e' = .indexError := by
        unfold pyIndex at hp
        split_ifs at hp <;> simp_all
      simp only [Except.error.injEq] at h
      rw [← h, he']
    | ok st =>
      rw [hp] at h
      exact ih _ _ _ h

/-- An if-expression with `Except.ok` in both branches is an `Except.ok`. -/
lemma exists_ok_ite (c : Prop) [Decidable c] (a b : UserMapState) :
    ∃ s', (if c then (Except.ok a : Except ClimbError UserMapState)
      else .ok b) = .ok s' := by
  by_cases h : c
  · exact ⟨a, by rw [if_pos h]⟩
  · exact ⟨b, by rw [if_neg h]⟩

/-- Once the lock and sign checks pass, `climb` either succeeds or runs
into a Python `IndexError`; no other exception is possible. -/
lemma climb_ok_or_index (m : WorldMap) (lephon_state : ℕ) (p : Play)
    (sv : ℚ) (s : UserMapState) (h : s.is_locked = false)
    (hc : ¬(m.is_beyond = true ∧ sv < 0)) :
    (∃ s', climb m lephon_state p sv s = .ok s') ∨
      climb m lephon_state p sv s = .error .indexError := by
  simp only [climb]
  rw [if_neg (by simp [h]), if_neg hc]
  by_cases hidx : m.steps.length ≤ s.curr_position
  · rw [if_pos hidx]
    exact Or.inr rfl
  · rw [if_neg hidx]
    by_cases h1 : lephon_state = 1
    · rw [if_pos h1]
      exact Or.inl ⟨_, rfl⟩
    rw [if_neg h1]
    by_cases h2 : lephon_state = 2
    · rw [if_pos h2]
      exact Or.inl ⟨_, rfl⟩
    rw [if_neg h2]
    by_cases h3 : lephon_state = 3 ∧ s.curr_position = 200
    · rw [if_pos h3]
      exact Or.inl ⟨_, rfl⟩
    rw [if_neg h3]
    by_cases h4 : lephon_state = 3
    · rw [if_pos h4]
      by_cases h5 : p.clear_type = 0
      · rw [if_pos h5]
        cases hr : recoilLoop m.steps 13 (s.curr_position : ℤ)
            s.curr_capture with
        | error e =>
          have he := recoilLoop_error_eq m.steps _ _ _ _ hr
          subst he
          refine Or.inr ?_
          simp [hr]
        | ok ij =>
          obtain ⟨i, j⟩ := ij
          simp only [hr]
          exact Or.inl (exists_ok_ite _ _ _)
      · rw [if_neg h5]
        exact Or.inl ⟨_, rfl⟩
    rw [if_neg h4]
    by_cases hb : m.is_beyond = true
    · rw [if_pos hb]
      exact Or.inl (exists_ok_ite _ _ _)
    · rw [if_neg hb]
      exact Or.inl (exists_ok_ite _ _ _)

/-- C7, counterexample: on a locked beyond map with a negative
`step_value`, `climb` raises `MapLocked`, not `InputError`, because the
lock check at `world.py` line 460 precedes the sign check at line 462; so
"raises InputError if and only if the map is a beyond map and
`step_value < 0`" fails in the only-if-free direction. -/
theorem C7_climb_errors_cex :
    climb ⟨true, 10, [.plain 5], ""⟩ 0 ⟨1, false⟩ (-1) ⟨0, 0, true⟩ =
      .error .mapLocked ∧
    (Except.error ClimbError.mapLocked : Except ClimbError UserMapState) ≠
      .error .inputError := by
  constructor
  · simp [climb]
  · simp

/-- C7, amended: `climb` raises `MapLocked` whenever the map is locked
(taking precedence over every other check), raises `InputError` exactly
when the map is unlocked, beyond and `step_value < 0`, and on an
unlocked, in-range, non-beyond map with no `lephon_nell` interference it
raises nothing at all, for negative `step_value` included. -/
theorem C7_climb_errors_amended (m : WorldMap) (lephon_state : ℕ) (p : Play)
    (sv : ℚ) (s : UserMapState) :
    (s.is_locked = true → climb m lephon_state p sv s = .error .mapLocked) ∧
    (s.is_locked = false →
      (climb m lephon_state p sv s = .error .inputError ↔
        m.is_beyond = true ∧ sv < 0)) ∧
    (s.is_locked = false → m.is_beyond = false → lephon_state = 0 →
      s.curr_position < m.steps.length →
      ∃ s', climb m lephon_state p sv s = .ok s') := by
  refine ⟨?_, ?_, ?_⟩
  · intro h
    simp [climb, h]
  · intro h
    constructor
    · intro heq
      by_contra hc
      rcases climb_ok_or_index m lephon_state p sv s h hc with ⟨s', hs'⟩ | hidx
      · rw [heq] at hs'
        exact Except.noConfusion hs'
      · rw [heq] at hidx
        simp at hidx
    · rintro ⟨hb, hsv⟩
      rw [climb]
      rw [if_neg (by simp [h])]
      rw [if_pos ⟨hb, hsv⟩]
  · intro h hb h0 hpos
    subst h0
    rw [climb]
    rw [if_neg (by simp [h])]
    rw [if_neg (by simp [hb])]
    rw [if_neg (Nat.not_le.mpr hpos)]
    norm_num [hb]
    exact exists_ok_ite _ _ _

/-- C7, witness: on a locked map the amended theorem yields `MapLocked`,
whatever the step value. -/
theorem C7_climb_errors_witness :
    climb ⟨false, 0, [.plain 5, .plain 5], ""⟩ 0 ⟨1, false⟩ (-3)
      ⟨0, 0, true⟩ = .error .mapLocked :=
  (C7_climb_errors_amended ⟨false, 0, [.plain 5, .plain 5], ""⟩ 0 ⟨1, false⟩
    (-3) ⟨0, 0, true⟩).1 rfl

/-- Strip the `step_type` tags from one step. -/
def eraseTags (st : Step) : Step := { st with step_type := [] }

/-- Strip the `step_type` tags from every step of a map. -/
def eraseStepTypes (m : WorldMap) : WorldMap :=
  { m with steps := m.steps.map eraseTags }

lemma getD_map_eraseTags (steps : List Step) (k : ℕ) :
    (steps.map eraseTags).getD k default = eraseTags (steps.getD k default) := by
  simp only [List.getD_eq_getElem?_getD, List.getElem?_map]
  cases steps[k]? <;> rfl

lemma beyondLoop_map_eraseTags (steps : List Step) :
    ∀ (fuel i : ℕ) (t : ℚ),
      beyondLoop (steps.map eraseTags) fuel i t = beyondLoop steps fuel i t := by
  intro fuel
  induction fuel with
  | zero => intro i t; rfl
  | succ fuel ih =>
    intro i t
    simp only [beyondLoop, List.length_map, getD_map_eraseTags, eraseTags, ih]

lemma pyIndex_map_eraseTags (steps : List Step) (i : ℤ) :
    pyIndex (steps.map eraseTags) i =
      Except.map eraseTags (pyIndex steps i) := by
  simp only [pyIndex, List.length_map, getD_map_eraseTags]
  split_ifs <;> simp [Except.map]

lemma recoilLoop_map_eraseTags (steps : List Step) :
    ∀ (k : ℕ) (i : ℤ) (j : ℚ),
      recoilLoop (steps.map eraseTags) k i j = recoilLoop steps k i j := by
  intro k
  induction k with
  | zero => intro i j; rfl
  | succ k ih =>
    intro i j
    rw [recoilLoop, recoilLoop, pyIndex_map_eraseTags]
    cases hp : pyIndex steps i with
    | error e => simp [Except.map]
    | ok st => simp [Except.map, eraseTags, ih]

/-- C10, counterexample: a beyond map whose current tile carries
`wall_impossible` does block forward movement: with a budget of 10 the
user stays at `(0, 0)`, while on the same map without the tag they reach
`(2, 10)`.  This happens because `world.py` line 526 zeroes `step_value`
for a `wall_impossible` current step before the beyond branch runs. -/
theorem C10_beyond_walls_cex :
    climb ⟨true, 100, [⟨5, ["wall_impossible"], none, none⟩, .plain 5,
        .plain 5], ""⟩ 0 ⟨1, false⟩ 10 ⟨0, 0, false⟩ = .ok ⟨0, 0, false⟩ ∧
    climb ⟨true, 100, [.plain 5, .plain 5, .plain 5], ""⟩ 0 ⟨1, false⟩ 10
        ⟨0, 0, false⟩ = .ok ⟨2, 10, false⟩ := by
  constructor <;> norm_num [climb, beyondLoop, Step.plain]

/-- C10, amended: the beyond branch of `climb` itself never consults
`step_type` — as long as the current tile is not tagged
`wall_impossible`, erasing every tag from the map does not change the
outcome of a beyond climb, so walls on the tiles ahead (and `wall_nell`
anywhere, the current tile included) never block movement.  A
`wall_impossible` tag on the current tile, however, zeroes `step_value`
before the branch (`world.py` line 526) and so does block capture gain. -/
theorem C10_beyond_walls_amended (m : WorldMap) (lephon_state : ℕ) (p : Play)
    (sv : ℚ) (s : UserMapState) (hb : m.is_beyond = true)
    (hcur : "wall_impossible" ∉
      (m.steps.getD s.curr_position default).step_type) :
    climb m lephon_state p sv s = climb (eraseStepTypes m) lephon_state p sv s := by
  simp only [climb, eraseStepTypes, List.length_map]
  by_cases hσ3 : lephon_state = 3
  · subst hσ3
    norm_num [getD_map_eraseTags, eraseTags, recoilLoop_map_eraseTags]
  · have hw : ¬((m.steps.getD s.curr_position default).step_type ≠ [] ∧
        lephon_state ≠ 3 ∧
        "wall_impossible" ∈ (m.steps.getD s.curr_position default).step_type) := by
      intro hx
      exact hcur hx.2.2
    have hw' : ¬(((m.steps.map eraseTags).getD s.curr_position
        default).step_type ≠ [] ∧ lephon_state ≠ 3 ∧ "wall_impossible" ∈
          ((m.steps.map eraseTags).getD s.curr_position default).step_type) := by
      rw [getD_map_eraseTags]
      simp [eraseTags]
    have hlam : ¬((m.steps.getD s.curr_position default).step_type ≠ [] ∧
        lephon_state = 3 ∧ "special_lament_rain" ∈
          (m.steps.getD s.curr_position default).step_type) := by
      intro hx
      exact hσ3 hx.2.1
    have hlam' : ¬(((m.steps.map eraseTags).getD s.curr_position
        default).step_type ≠ [] ∧ lephon_state = 3 ∧ "special_lament_rain" ∈
          ((m.steps.map eraseTags).getD s.curr_position default).step_type) := by
      intro hx
      exact hσ3 hx.2.1
    rw [if_neg hw, if_neg hw', if_neg hlam, if_neg hlam']
    simp [beyondLoop_map_eraseTags, recoilLoop_map_eraseTags, hb, hσ3]

/-- C10, witness: on a wall-free beyond map the amended theorem applies,
and erasing the (empty) tags indeed does not change the climb. -/
theorem C10_beyond_walls_witness :
    climb ⟨true, 100, [.plain 5, .plain 5, .plain 5], ""⟩ 0 ⟨1, false⟩ 10
        ⟨0, 0, false⟩ =
      climb (eraseStepTypes ⟨true, 100, [.plain 5, .plain 5, .plain 5], ""⟩)
        0 ⟨1, false⟩ 10 ⟨0, 0, false⟩ :=
  C10_beyond_walls_amended ⟨true, 100, [.plain 5, .plain 5, .plain 5], ""⟩
    0 ⟨1, false⟩ 10 ⟨0, 0, false⟩ rfl (by simp [Step.plain])

lemma climbLoop_exit_nonpos (steps : List Step) (la : Bool) (fuel i : ℕ)
    (j t : ℚ) (ht : t ≤ 0) : climbLoop steps la fuel i j t = (i, j) := by
  cases fuel with
  | zero => rfl
  | succ fuel => rw [climbLoop, if_pos (Or.inl ht)]

lemma specNormalLoop_exit_nonpos (steps : List Step) (la : Bool) (fuel i : ℕ)
    (j t : ℚ) (ht : t ≤ 0) : specNormalLoop steps la fuel i j t = (i, j) := by
  cases fuel with
  | zero => rfl
  | succ fuel => rw [specNormalLoop, if_pos (Or.inl ht)]

lemma specNormalLoop_wall_exit (steps : List Step) (la : Bool) (fuel i : ℕ)
    (j t : ℚ)
    (hw : "wall_impossible" ∈ (steps.getD i default).step_type ∨
      (la = false ∧ "wall_nell" ∈ (steps.getD i default).step_type)) :
    specNormalLoop steps la fuel i j t = (i, j) := by
  cases fuel with
  | zero => rfl
  | succ fuel =>
    rw [specNormalLoop]
    by_cases hg : t ≤ 0 ∨ steps.length ≤ i
    · rw [if_pos hg]
    · rw [if_neg hg, if_pos hw]

/-- The two loop definitions agree: the extra `step_type` non-emptiness
test in the source's wall guard is implied by tag membership. -/
lemma climbLoop_eq_specNormalLoop (steps : List Step) (la : Bool) :
    ∀ (fuel i : ℕ) (j t : ℚ),
      climbLoop steps la fuel i j t = specNormalLoop steps la fuel i j t := by
  intro fuel
  induction fuel with
  | zero => intro i j t; rfl
  | succ fuel ih =>
    intro i j t
    rw [climbLoop, specNormalLoop]
    by_cases hg : t ≤ 0 ∨ steps.length ≤ i
    · rw [if_pos hg, if_pos hg]
    · rw [if_neg hg, if_neg hg]
      by_cases hw : "wall_impossible" ∈ (steps.getD i default).step_type ∨
          (la = false ∧ "wall_nell" ∈ (steps.getD i default).step_type)
      · have hne : (steps.getD i default).step_type ≠ [] := by
          rcases hw with h1 | h2
          · exact List.ne_nil_of_mem h1
          · exact List.ne_nil_of_mem h2.2
        rw [if_pos ⟨hne, hw⟩, if_pos hw]
      · rw [if_neg (fun hx => hw hx.2), if_neg hw]
        by_cases hdt : (steps.getD i default).capture - j > t
        · rw [if_pos hdt, if_pos hdt]
        · rw [if_neg hdt, if_neg hdt, ih]

/-- C1: on a loaded, unlocked non-beyond map, with no `lephon_nell`
interference (`lephon_nell_state = 0`), `climb` with `step_value ≥ 0`
computes exactly the tile-consumption loop the spec gives (walls stop the
loop in place; `dt > t` adds the budget into the tile, else the loop
advances a tile), with the `(step_count - 1, 0)` clamp on exit; and in
particular a budget exactly equal to the remaining capture of a wall-free
tile advances to `(i + 1, 0)`, not `(i, capture)`. -/
theorem C1_normal_climb_follows_spec_loop (m : WorldMap) (p : Play) (sv : ℚ)
    (s : UserMapState) (hb : m.is_beyond = false) (hl : s.is_locked = false)
    (hpos : s.curr_position < m.steps.length) (hsv : 0 ≤ sv) :
    climb m 0 p sv s =
      .ok ⟨(specNormalClimb m.steps s.curr_position s.curr_capture sv).1,
        (specNormalClimb m.steps s.curr_position s.curr_capture sv).2,
        false⟩ ∧
    ("wall_impossible" ∉ (m.steps.getD s.curr_position default).step_type →
      "wall_nell" ∉ (m.steps.getD s.curr_position default).step_type →
      s.curr_capture < (m.steps.getD s.curr_position default).capture →
      sv = (m.steps.getD s.curr_position default).capture - s.curr_capture →
      s.curr_position + 1 < m.steps.length →
      climb m 0 p sv s = .ok ⟨s.curr_position + 1, 0, false⟩) := by
  have key : climb m 0 p sv s =
      .ok ⟨(specNormalClimb m.steps s.curr_position s.curr_capture sv).1,
        (specNormalClimb m.steps s.curr_position s.curr_capture sv).2,
        false⟩ := by
    simp only [climb]
    rw [if_neg (by simp [hl])]
    rw [if_neg (by simp [hb])]
    rw [if_neg (Nat.not_le.mpr hpos)]
    rw [if_neg (show (0 : ℕ) ≠ 1 by norm_num)]
    rw [if_neg (show (0 : ℕ) ≠ 2 by norm_num)]
    rw [if_neg (show ¬((0 : ℕ) = 3 ∧ s.curr_position = 200) from
      fun hx => absurd hx.1 (by norm_num))]
    rw [if_neg (show (0 : ℕ) ≠ 3 by norm_num)]
    rw [if_neg (show ¬(m.is_beyond = true) by simp [hb])]
    rw [if_neg (show ¬((m.steps.getD s.curr_position default).step_type ≠ [] ∧
        (0 : ℕ) = 3 ∧ "special_lament_rain" ∈
          (m.steps.getD s.curr_position default).step_type) from
      fun hx => absurd hx.2.1 (by norm_num))]
    by_cases hwz : "wall_impossible" ∈
        (m.steps.getD s.curr_position default).step_type
    · have hne : (m.steps.getD s.curr_position default).step_type ≠ [] :=
        List.ne_nil_of_mem hwz
      have hcond : (m.steps.getD s.curr_position default).step_type ≠ [] ∧
          (0 : ℕ) ≠ 3 ∧ "wall_impossible" ∈
            (m.steps.getD s.curr_position default).step_type :=
        ⟨hne, by norm_num, hwz⟩
      rw [if_pos hcond]
      rw [climbLoop_exit_nonpos m.steps false _ _ _ _ le_rfl]
      rw [specNormalClimb,
        specNormalLoop_wall_exit m.steps false _ _ _ _ (Or.inl hwz)]
      simp [hl, Nat.not_le.mpr hpos]
    · have hcond : ¬((m.steps.getD s.curr_position default).step_type ≠ [] ∧
          (0 : ℕ) ≠ 3 ∧ "wall_impossible" ∈
            (m.steps.getD s.curr_position default).step_type) :=
        fun hx => hwz hx.2.2
      rw [if_neg hcond]
      rw [climbLoop_eq_specNormalLoop]
      rw [specNormalClimb]
      by_cases hle : m.steps.length ≤
          (specNormalLoop m.steps false (m.steps.length + 1) s.curr_position
            s.curr_capture sv).1
      · simp [hle, hl]
      · simp [hle, hl]
  refine ⟨key, ?_⟩
  intro hnw hnn hcap hsveq hpos1
  subst hsveq
  rw [key]
  have hspec : specNormalClimb m.steps s.curr_position s.curr_capture
      ((m.steps.getD s.curr_position default).capture - s.curr_capture) =
      (s.curr_position + 1, 0) := by
    rw [specNormalClimb]
    conv_lhs => rw [specNormalLoop]
    rw [if_neg (not_or.mpr
      ⟨not_le.mpr (sub_pos.mpr hcap), Nat.not_le.mpr hpos⟩)]
    rw [if_neg (show ¬("wall_impossible" ∈
        (m.steps.getD s.curr_position default).step_type ∨
        ((false : Bool) = false ∧ "wall_nell" ∈
          (m.steps.getD s.curr_position default).step_type)) from by
      intro hx
      rcases hx with h1 | h2
      · exact hnw h1
      · exact hnn h2.2)]
    rw [if_neg (lt_irrefl _)]
    rw [sub_self]
    rw [specNormalLoop_exit_nonpos m.steps false _ _ _ _ le_rfl]
    rw [if_neg (Nat.not_le.mpr hpos1)]
  rw [hspec]

/-- C1, witness: a 3-step map with captures `[2, 3, 4]`; from `(0, 0)` a
budget of exactly `2` lands on `(1, 0)`. -/
theorem C1_normal_climb_witness :
    climb ⟨false, 0, [.plain 2, .plain 3, .plain 4], ""⟩ 0 ⟨1, false⟩ 2
      ⟨0, 0, false⟩ = .ok ⟨1, 0, false⟩ :=
  (C1_normal_climb_follows_spec_loop
      ⟨false, 0, [.plain 2, .plain 3, .plain 4], ""⟩ ⟨1, false⟩ 2
      ⟨0, 0, false⟩ rfl rfl (by norm_num) (by norm_num)).2
    (by simp [Step.plain]) (by simp [Step.plain]) (by norm_num [Step.plain])
    (by norm_num [Step.plain]) (by norm_num)

/-- Sum of the captures of the first `k` steps. -/
def sumCaps (steps : List Step) (k : ℕ) : ℚ :=
  ((steps.take k).map Step.capture).sum

lemma sumCaps_zero (steps : List Step) : sumCaps steps 0 = 0 := rfl

lemma sumCaps_succ (steps : List Step) (i : ℕ) (h : i < steps.length) :
    sumCaps steps (i + 1) = sumCaps steps i +
      (steps.getD i default).capture := by
  unfold sumCaps
  rw [List.getD_eq_getElem steps default h]
  simp only [List.map_take]
  rw [List.take_succ, List.getElem?_eq_getElem
    (show i < (steps.map Step.capture).length by simpa using h)]
  simp

/-- The beyond scan of the code, followed by the last-step clamp, lands
exactly where the spec's running-sum description says — provided every
capture is positive. -/
lemma beyondLoop_eq_specBeyondGo (steps : List Step) (B : ℚ)
    (hcappos : ∀ st ∈ steps, 0 < st.capture) :
    ∀ (fuel i : ℕ) (t : ℚ), steps.length - i < fuel → i ≤ steps.length →
      t = B - sumCaps steps i → 0 ≤ t →
      (if steps.length ≤ beyondLoop steps fuel i t then steps.length - 1
        else beyondLoop steps fuel i t) =
        specBeyondGo B (steps.drop i) i (sumCaps steps i) := by
  intro fuel
  induction fuel with
  | zero =>
    intro i t hfuel
    omega
  | succ fuel ih =>
    intro i t hfuel hi ht h0
    by_cases hin : steps.length ≤ i
    · have hieq : i = steps.length := le_antisymm hi hin
      subst hieq
      rw [beyondLoop, if_pos (Or.inl le_rfl), if_pos le_rfl,
        List.drop_length, specBeyondGo]
    · have hlt : i < steps.length := not_le.mp hin
      have hmem : steps.getD i default ∈ steps := by
        rw [List.getD_eq_getElem steps default hlt]
        exact steps.getElem_mem hlt
      have hcapi : 0 < (steps.getD i default).capture := hcappos _ hmem
      have hdrop : steps.drop i = steps.getD i default :: steps.drop (i + 1) := by
        rw [List.getD_eq_getElem steps default hlt]
        exact List.drop_eq_getElem_cons hlt
      rw [beyondLoop, hdrop, specBeyondGo]
      by_cases ht0 : t ≤ 0
      · have hteq : t = 0 := le_antisymm ht0 h0
        have hacc : sumCaps steps i = B := by
          rw [hteq] at ht
          linarith
        have hcond : sumCaps steps i + (steps.getD i default).capture > B := by
          rw [hacc]
          linarith
        rw [if_pos (Or.inr ht0), if_neg hin, if_pos hcond]
      · rw [if_neg (not_or.mpr ⟨hin, ht0⟩)]
        by_cases hdt : (steps.getD i default).capture > t
        · have hcond : sumCaps steps i +
              (steps.getD i default).capture > B := by
            rw [ht] at hdt
            linarith
          rw [if_pos hdt, if_neg hin, if_pos hcond]
        · push_neg at hdt
          have hcond : ¬(sumCaps steps i +
              (steps.getD i default).capture > B) := by
            rw [ht] at hdt
            push_neg
            linarith
          rw [if_neg (not_lt.mpr hdt), if_neg hcond]
          have hrec := ih (i + 1) (t - (steps.getD i default).capture)
            (by omega) (by omega)
            (by rw [sumCaps_succ steps i hlt, ht]; ring)
            (by linarith)
          rw [sumCaps_succ steps i hlt] at hrec
          exact hrec

/-- C2, counterexample: a beyond map with captures `[5, 0, 3]` whose
current tile is tagged `wall_impossible`; user at `(0, 5)` with
`step_value = 7`.  The tag zeroes `step_value` before the beyond branch,
so `curr_capture` becomes `5`, not `min(5 + 7, 100) = 12`; and with a
zero-capture tile the scan stops at position `1` even though the spec's
"first step whose running sum exceeds the budget" rule (budget `5`, and a
fortiori budget `12`) names position `2`. -/
theorem C2_beyond_climb_cex :
    climb ⟨true, 100, [⟨5, ["wall_impossible"], none, none⟩, .plain 0,
        .plain 3], ""⟩ 0 ⟨1, false⟩ 7 ⟨0, 5, false⟩ = .ok ⟨1, 5, false⟩ ∧
    ¬((1 : ℕ) = specBeyondPosition [⟨5, ["wall_impossible"], none, none⟩,
        .plain 0, .plain 3] (5 + 7) ∧
      (5 : ℚ) = min (5 + 7 : ℚ) 100) := by
  constructor
  · norm_num [climb, beyondLoop, Step.plain]
  · intro hx
    have := hx.2
    norm_num at this

/-- C2, amended: on a loaded, unlocked beyond map with `step_value ≥ 0`,
a nonnegative stored capture, every step capture positive, and the
current tile not tagged `wall_impossible` (that tag zeroes `step_value`
first), `climb` sets `curr_capture` to
`min(prev_capture + step_value, beyond_health)` and lands on the first
step whose running capture sum exceeds the budget
`prev_capture + step_value`, or on the last step if the list is
exhausted.  (With zero-capture steps the scan can stop earlier: it
advances past a step exactly when its capture is at most the remaining
budget.) -/
theorem C2_beyond_climb_amended (m : WorldMap) (p : Play) (sv : ℚ)
    (s : UserMapState) (hb : m.is_beyond = true) (hl : s.is_locked = false)
    (hpos : s.curr_position < m.steps.length) (hsv : 0 ≤ sv)
    (hcap : 0 ≤ s.curr_capture)
    (hcappos : ∀ st ∈ m.steps, 0 < st.capture)
    (hwz : "wall_impossible" ∉
      (m.steps.getD s.curr_position default).step_type) :
    climb m 0 p sv s =
      .ok ⟨specBeyondPosition m.steps (s.curr_capture + sv),
        min (s.curr_capture + sv) m.beyond_health, false⟩ := by
  simp only [climb]
  rw [if_neg (by simp [hl])]
  rw [if_neg (by
    intro hx
    exact absurd hx.2 (not_lt.mpr hsv))]
  rw [if_neg (Nat.not_le.mpr hpos)]
  rw [if_neg (show (0 : ℕ) ≠ 1 by norm_num)]
  rw [if_neg (show (0 : ℕ) ≠ 2 by norm_num)]
  rw [if_neg (show ¬((0 : ℕ) = 3 ∧ s.curr_position = 200) from
    fun hx => absurd hx.1 (by norm_num))]
  rw [if_neg (show (0 : ℕ) ≠ 3 by norm_num)]
  rw [if_pos hb]
  rw [if_neg (show ¬((m.steps.getD s.curr_position default).step_type ≠ [] ∧
      (0 : ℕ) = 3 ∧ "special_lament_rain" ∈
        (m.steps.getD s.curr_position default).step_type) from
    fun hx => absurd hx.2.1 (by norm_num))]
  rw [if_neg (show ¬((m.steps.getD s.curr_position default).step_type ≠ [] ∧
      (0 : ℕ) ≠ 3 ∧ "wall_impossible" ∈
        (m.steps.getD s.curr_position default).step_type) from
    fun hx => hwz hx.2.2)]
  have hcapeq : (if m.beyond_health - s.curr_capture ≥ sv
      then s.curr_capture + sv else m.beyond_health) =
      min (s.curr_capture + sv) m.beyond_health := by
    split_ifs with h
    · rw [min_eq_left]
      linarith
    · rw [min_eq_right]
      push_neg at h
      linarith
  have hposEq := beyondLoop_eq_specBeyondGo m.steps (s.curr_capture + sv)
    hcappos (m.steps.length + 1) 0 (s.curr_capture + sv) (by omega)
    (Nat.zero_le _) (by rw [sumCaps_zero]; ring) (by linarith)
  rw [sumCaps_zero, List.drop_zero] at hposEq
  have hspecdef : specBeyondGo (s.curr_capture + sv) m.steps 0 0 =
      specBeyondPosition m.steps (s.curr_capture + sv) := rfl
  rw [hspecdef] at hposEq
  by_cases hle : m.steps.length ≤
      beyondLoop m.steps (m.steps.length + 1) 0 (s.curr_capture + sv)
  · rw [if_pos hle]
    rw [if_pos hle] at hposEq
    rw [hcapeq, hposEq, hl]
  · rw [if_neg hle]
    rw [if_neg hle] at hposEq
    rw [hcapeq, hposEq, hl]

/-- C2, witness: beyond map with captures `[2, 3, 4]`, health `100`, user
at `(0, 1)`, `step_value = 4`: budget `5`, landing on step `2` with
capture `5`. -/
theorem C2_beyond_climb_witness :
    climb ⟨true, 100, [.plain 2, .plain 3, .plain 4], ""⟩ 0 ⟨1, false⟩ 4
      ⟨0, 1, false⟩ = .ok ⟨2, 5, false⟩ := by
  have h := C2_beyond_climb_amended
    ⟨true, 100, [.plain 2, .plain 3, .plain 4], ""⟩ ⟨1, false⟩ 4
    ⟨0, 1, false⟩ rfl rfl (by norm_num) (by norm_num) (by norm_num)
    (by
      intro st hst
      simp [Step.plain] at hst
      rcases hst with h | h | h <;> subst h <;> norm_num)
    (by simp [Step.plain])
  rw [h]
  norm_num [specBeyondPosition, specBeyondGo, Step.plain]

lemma pyIndex_ok_nat (steps : List Step) (i : ℕ) (h : i < steps.length) :
    pyIndex steps (i : ℤ) = .ok (steps.getD i default) := by
  unfold pyIndex
  rw [if_pos (Int.natCast_nonneg i), if_pos (by exact_mod_cast h)]
  simp

lemma pyIndex_ok_of_valid (steps : List Step) (i : ℤ)
    (h1 : -(steps.length : ℤ) ≤ i) (h2 : i < (steps.length : ℤ)) :
    ∃ st, pyIndex steps i = .ok st := by
  unfold pyIndex
  by_cases h0 : 0 ≤ i
  · rw [if_pos h0, if_pos h2]
    exact ⟨_, rfl⟩
  · rw [if_neg h0, if_pos h1]
    exact ⟨_, rfl⟩

/-- A successful recoil always lands `k` positions back. -/
lemma recoilLoop_ok_first_eq (steps : List Step) :
    ∀ (k : ℕ) (i : ℤ) (j : ℚ) (i' : ℤ) (j' : ℚ),
      recoilLoop steps k i j = .ok (i', j') → i' = i - k := by
  intro k
  induction k with
  | zero =>
    intro i j i' j' h
    simp [recoilLoop] at h
    omega
  | succ k ih =>
    intro i j i' j' h
    rw [recoilLoop] at h
    cases hp : pyIndex steps i with
    | error e =>
      rw [hp] at h
      simp at h
    | ok st =>
      rw [hp] at h
      have := ih _ _ _ _ h
      push_cast at this ⊢
      omega

/-- When all `k` reads stay within Python's index range, the recoil
completes and lands on `i - k`. -/
lemma recoilLoop_ok_first (steps : List Step) :
    ∀ (k : ℕ) (i : ℤ) (j : ℚ),
      (∀ t : ℕ, t < k → -(steps.length : ℤ) ≤ i - t ∧
        i - t < (steps.length : ℤ)) →
      ∃ j', recoilLoop steps k i j = .ok (i - k, j') := by
  intro k
  induction k with
  | zero =>
    intro i j _
    exact ⟨j, by simp [recoilLoop]⟩
  | succ k ih =>
    intro i j hvalid
    have hv0 := hvalid 0 (by omega)
    obtain ⟨st, hst⟩ := pyIndex_ok_of_valid steps i (by simpa using hv0.1)
      (by simpa using hv0.2)
    obtain ⟨j', hj'⟩ := ih (i - 1) (j - st.capture) (fun t ht => by
      have hv := hvalid (t + 1) (by omega)
      push_cast at hv ⊢
      omega)
    refine ⟨j', ?_⟩
    rw [recoilLoop]
    simp only [hst]
    rw [hj']
    congr 1
    push_cast
    ring_nf

/-- In-range recoil: starting at a position `≥ k - 1`, the recoil walks
back `k` tiles, subtracting the window of `k` captures ending at the
start position. -/
lemma recoilLoop_descend (steps : List Step) :
    ∀ (k i : ℕ) (j : ℚ), k ≤ i + 1 → i < steps.length →
      recoilLoop steps k (i : ℤ) j =
        .ok ((i : ℤ) - k, j - (sumCaps steps (i + 1) -
          sumCaps steps (i + 1 - k))) := by
  intro k
  induction k with
  | zero =>
    intro i j _ _
    norm_num [recoilLoop]
  | succ k ih =>
    intro i j hk hi
    rw [recoilLoop]
    simp only [pyIndex_ok_nat steps i hi]
    by_cases hk0 : k = 0
    · subst hk0
      rw [recoilLoop]
      have h1 : i + 1 - 1 = i := by omega
      rw [h1, sumCaps_succ steps i hi]
      simp only [Except.ok.injEq, Prod.mk.injEq]
      constructor
      · push_cast
        ring_nf
      · ring
    · have hik : k ≤ i := by omega
      have hi1 : 1 ≤ i := le_trans (Nat.pos_of_ne_zero hk0) hik
      have hcast : (i : ℤ) - 1 = ((i - 1 : ℕ) : ℤ) := by omega
      rw [hcast]
      rw [ih (i - 1) (j - (steps.getD i default).capture) (by omega)
        (by omega)]
      have h2 : i - 1 + 1 = i := by omega
      rw [h2]
      have h3 : i + 1 - (k + 1) = i - k := by omega
      rw [h3]
      rw [sumCaps_succ steps i hi]
      simp only [Except.ok.injEq, Prod.mk.injEq]
      constructor
      · omega
      · ring

/-- With `lephon_nell_state = 3`, `climb` on a non-`lephon_nell` map
reduces to the phase-4 teleport / final-phase recoil logic, before the
beyond and normal traversal branches. -/
lemma climb_state3_shape (m : WorldMap) (p : Play) (sv : ℚ)
    (s : UserMapState) (hl : s.is_locked = false)
    (hpos : s.curr_position < m.steps.length) (hsv : 0 ≤ sv) :
    climb m 3 p sv s =
      (if s.curr_position = 200 then .ok ⟨65, 1, s.is_locked⟩
       else if p.clear_type = 0 then
         (match recoilLoop m.steps 13 (s.curr_position : ℤ)
             s.curr_capture with
          | .error e => .error e
          | .ok (i, j) =>
            if i < 0 then .ok ⟨0, 0, s.is_locked⟩
            else .ok ⟨i.toNat, j, s.is_locked⟩)
       else .ok s) := by
  simp only [climb]
  rw [if_neg (by simp [hl])]
  rw [if_neg (fun hx => absurd hx.2 (not_lt.mpr hsv))]
  rw [if_neg (Nat.not_le.mpr hpos)]
  norm_num

/-- C9, counterexample: a user in the lephon final phase
(`lephon_nell_state = 3`) standing at position `200` of an ordinary
201-step map, with a winning play (`clear_type = 1`): the claim says the
state is returned unchanged, but `climb` runs the phase-4 teleport
(`world.py` line 548) and moves them to `(65, 1)`. -/
theorem C9_lephon_final_cex :
    climb ⟨false, 0, List.replicate 201 (.plain 1), ""⟩ 3 ⟨1, false⟩ 5
      ⟨200, 0, false⟩ = .ok ⟨65, 1, false⟩ ∧
    (UserMapState.mk 65 1 false ≠ UserMapState.mk 200 0 false) := by
  constructor
  · rw [climb_state3_shape _ _ _ _ rfl
      (by show (200 : ℕ) < (List.replicate 201 (Step.plain 1)).length
          rw [List.length_replicate]; omega)
      (by norm_num)]
    rw [if_pos rfl]
  · intro h
    injection h with h1 h2 h3
    exact absurd h1 (by norm_num)

/-- C9, amended: with `lephon_nell_state = 3`, `climb` on a loaded,
unlocked map other than `lephon_nell` returns before the beyond/normal
traversal branches and ignores `step_value` entirely; at position `200`
it teleports to `(65, 1)` regardless of `clear_type`; otherwise a
non-failing play leaves the state unchanged, and a failing play
(`clear_type = 0`) walks back 13 tiles, subtracting the captures of the
window ending at the current tile, resetting to `(0, 0)` exactly when the
position index underflows below `0`; in every successful case the
position never advances beyond where it was (the teleport lands at
`65 < 200`). -/
theorem C9_lephon_final_amended (m : WorldMap) (p : Play) (sv : ℚ)
    (s : UserMapState) (hl : s.is_locked = false)
    (hpos : s.curr_position < m.steps.length) (hsv : 0 ≤ sv) :
    (climb m 3 p sv s = climb m 3 p 0 s) ∧
    (s.curr_position = 200 → climb m 3 p sv s = .ok ⟨65, 1, false⟩) ∧
    (p.clear_type ≠ 0 → s.curr_position ≠ 200 →
      climb m 3 p sv s = .ok s) ∧
    (p.clear_type = 0 → s.curr_position ≠ 200 → 13 ≤ s.curr_position →
      climb m 3 p sv s = .ok ⟨s.curr_position - 13,
        s.curr_capture - (sumCaps m.steps (s.curr_position + 1) -
          sumCaps m.steps (s.curr_position - 12)), false⟩) ∧
    (p.clear_type = 0 → s.curr_position ≠ 200 → s.curr_position < 13 →
      13 ≤ m.steps.length → climb m 3 p sv s = .ok ⟨0, 0, false⟩) ∧
    (∀ s', climb m 3 p sv s = .ok s' →
      s'.curr_position ≤ s.curr_position ∨
        (s.curr_position = 200 ∧ s'.curr_position = 65)) := by
  have hshape := climb_state3_shape m p sv s hl hpos hsv
  have hshape0 := climb_state3_shape m p 0 s hl hpos le_rfl
  refine ⟨?_, ?_, ?_, ?_, ?_, ?_⟩
  · rw [hshape, hshape0]
  · intro h200
    rw [hshape, if_pos h200, hl]
  · intro hclear h200
    rw [hshape, if_neg h200, if_neg hclear]
  · intro hclear h200 h13
    rw [hshape, if_neg h200, if_pos hclear]
    simp only [recoilLoop_descend m.steps 13 s.curr_position s.curr_capture
      (by omega) hpos]
    have hpos13 : ¬((s.curr_position : ℤ) - (13 : ℕ) < 0) := by
      push_neg
      omega
    rw [if_neg hpos13]
    have htn : ((s.curr_position : ℤ) - (13 : ℕ)).toNat =
        s.curr_position - 13 := by omega
    have h12 : s.curr_position + 1 - 13 = s.curr_position - 12 := by omega
    rw [htn, h12, hl]
  · intro hclear h200 h13 hlen
    rw [hshape, if_neg h200, if_pos hclear]
    obtain ⟨j', hj'⟩ := recoilLoop_ok_first m.steps 13
      (s.curr_position : ℤ) s.curr_capture (fun t ht => by
        constructor <;> omega)
    simp only [hj']
    rw [if_pos (show (s.curr_position : ℤ) - (13 : ℕ) < 0 by omega), hl]
  · intro s' hs'
    rw [hshape] at hs'
    by_cases h200 : s.curr_position = 200
    · rw [if_pos h200] at hs'
      simp only [Except.ok.injEq] at hs'
      right
      exact ⟨h200, by rw [← hs']⟩
    · rw [if_neg h200] at hs'
      by_cases hclear : p.clear_type = 0
      · rw [if_pos hclear] at hs'
        cases hr : recoilLoop m.steps 13 (s.curr_position : ℤ)
            s.curr_capture with
        | error e =>
          rw [hr] at hs'
          simp at hs'
        | ok ij =>
          obtain ⟨i, j⟩ := ij
          simp only [hr] at hs'
          have hieq := recoilLoop_ok_first_eq m.steps 13 _ _ _ _ hr
          by_cases hi0 : i < 0
          · rw [if_pos hi0] at hs'
            simp only [Except.ok.injEq] at hs'
            left
            rw [← hs']
            exact Nat.zero_le _
          · rw [if_neg hi0] at hs'
            simp only [Except.ok.injEq] at hs'
            left
            rw [← hs']
            simp only []
            omega
      · rw [if_neg hclear] at hs'
        simp only [Except.ok.injEq] at hs'
        left
        rw [← hs']

/-- C9, witness: the amended theorem at the counterexample's map, with a
different budget: the teleport fires and lands on `(65, 1)`. -/
theorem C9_lephon_final_witness :
    climb ⟨false, 0, List.replicate 201 (.plain 1), ""⟩ 3 ⟨1, false⟩ 7
      ⟨200, 0, false⟩ = .ok ⟨65, 1, false⟩ :=
  (C9_lephon_final_amended ⟨false, 0, List.replicate 201 (.plain 1), ""⟩
    ⟨1, false⟩ 7 ⟨200, 0, false⟩ rfl
    (by show (200 : ℕ) < (List.replicate 201 (Step.plain 1)).length
        rw [List.length_replicate]; omega)
    (by norm_num)).2.1 rfl

lemma getD_mem (steps : List Step) (i : ℕ) (h : i < steps.length) :
    steps.getD i default ∈ steps := by
  rw [List.getD_eq_getElem steps default h]
  exact steps.getElem_mem h

/-- The invariant carried through the normal-map traversal loop:
position at most `step_count`, nonnegative capture, capture within the
current tile (last tile exempt), and zero capture at the exit
position `step_count`. -/
def LoopGood (steps : List Step) (r : ℕ × ℚ) : Prop :=
  r.1 ≤ steps.length ∧ 0 ≤ r.2 ∧
    (r.1 < steps.length →
      (r.1 = steps.length - 1 ∨
        r.2 < (steps.getD r.1 default).capture)) ∧
    (r.1 = steps.length → r.2 = 0)

lemma climbLoop_inv (steps : List Step) (la : Bool)
    (hcappos : ∀ st ∈ steps, 0 < st.capture) :
    ∀ (fuel i : ℕ) (j t : ℚ), steps.length - i < fuel →
      LoopGood steps (i, j) →
      LoopGood steps (climbLoop steps la fuel i j t) := by
  intro fuel
  induction fuel with
  | zero =>
    intro i j t hf _
    exact absurd hf (by omega)
  | succ fuel ih =>
    intro i j t hf hgood
    simp only [climbLoop]
    by_cases hg : t ≤ 0 ∨ steps.length ≤ i
    · rw [if_pos hg]
      exact hgood
    · rw [if_neg hg]
      have hin : i < steps.length := by
        rcases not_or.mp hg with ⟨_, h2⟩
        omega
      have ht : 0 < t := by
        rcases not_or.mp hg with ⟨h1, _⟩
        exact not_le.mp h1
      by_cases hwall : (steps.getD i default).step_type ≠ [] ∧
          ("wall_impossible" ∈ (steps.getD i default).step_type ∨
            (la = false ∧ "wall_nell" ∈ (steps.getD i default).step_type))
      · rw [if_pos hwall]
        exact hgood
      · rw [if_neg hwall]
        have hj0 : 0 ≤ j := hgood.2.1
        by_cases hdt : (steps.getD i default).capture - j > t
        · rw [if_pos hdt]
          dsimp only [LoopGood] at hgood ⊢
          refine ⟨le_of_lt hin, by linarith, fun _ => ?_,
            fun hx => absurd hx (by omega)⟩
          rcases hgood.2.2.1 hin with hlast | hbound
          · exact Or.inl hlast
          · exact Or.inr (by linarith)
        · rw [if_neg hdt]
          apply ih
          · omega
          · dsimp only [LoopGood]
            refine ⟨by omega, le_rfl, fun hlt => ?_, fun _ => rfl⟩
            exact Or.inr (hcappos _ (getD_mem steps (i + 1) hlt))

/-- One climb with `lephon_nell_state = 0` on a well-formed map other
than `lephon_nell` preserves the state invariant. -/
lemma climb_preserves_inv (m : WorldMap) (p : Play) (sv : ℚ)
    (s s' : UserMapState) (hwf : WellFormedMap m) (hinv : StateInv m s)
    (hok : climb m 0 p sv s = .ok s') : StateInv m s' := by
  by_cases hl : s.is_locked = true
  · rw [climb, if_pos hl] at hok
    exact absurd hok (by simp)
  · have hl' : s.is_locked = false := by
      simpa using hl
    simp only [climb] at hok
    rw [if_neg (by simp [hl'])] at hok
    by_cases hbneg : m.is_beyond = true ∧ sv < 0
    · rw [if_pos hbneg] at hok
      exact absurd hok (by simp)
    · rw [if_neg hbneg] at hok
      rw [if_neg (Nat.not_le.mpr hinv.1)] at hok
      rw [if_neg (show (0 : ℕ) ≠ 1 by norm_num)] at hok
      rw [if_neg (show (0 : ℕ) ≠ 2 by norm_num)] at hok
      rw [if_neg (show ¬((0 : ℕ) = 3 ∧ s.curr_position = 200) from
        fun hx => absurd hx.1 (by norm_num))] at hok
      rw [if_neg (show (0 : ℕ) ≠ 3 by norm_num)] at hok
      rw [if_neg (show ¬((m.steps.getD s.curr_position
          default).step_type ≠ [] ∧ (0 : ℕ) = 3 ∧ "special_lament_rain" ∈
            (m.steps.getD s.curr_position default).step_type) from
        fun hx => absurd hx.2.1 (by norm_num))] at hok
      have hSV : ∀ q : ℚ,
          (q = (if (m.steps.getD s.curr_position default).step_type ≠ [] ∧
            (0 : ℕ) ≠ 3 ∧ "wall_impossible" ∈
              (m.steps.getD s.curr_position default).step_type
            then 0 else sv)) → q = 0 ∨ q = sv := by
        intro q hq
        rw [hq]
        split_ifs
        · exact Or.inl rfl
        · exact Or.inr rfl
      rcases hSV _ rfl with hsv2 | hsv2 <;> rw [hsv2] at hok
      case _ =>
        -- step_value zeroed by the wall on the current tile
        by_cases hb : m.is_beyond = true
        · rw [if_pos hb] at hok
          split at hok <;>
            (simp only [Except.ok.injEq] at hok
             subst hok
             dsimp only [StateInv]
             refine ⟨?_, ?_, fun hx => absurd hb (by rw [hx]; simp)⟩)
          · have := hwf.1
            omega
          · split_ifs
            · linarith [hinv.2.1]
            · exact hwf.2.2
          · rename_i hlt
            exact not_le.mp hlt
          · split_ifs
            · linarith [hinv.2.1]
            · exact hwf.2.2
        · rw [if_neg hb] at hok
          have hloop := climbLoop_inv m.steps false hwf.2.1
            (m.steps.length + 1) s.curr_position s.curr_capture 0
            (by omega)
            ⟨le_of_lt hinv.1, hinv.2.1,
              fun _ => hinv.2.2 (by simpa using hb),
              fun hx => absurd hx (by have := hinv.1; omega)⟩
          split at hok <;>
            (simp only [Except.ok.injEq] at hok
             subst hok
             dsimp only [StateInv])
          · exact ⟨by have := hwf.1; omega, le_rfl, fun _ => Or.inl rfl⟩
          · rename_i hlt
            have hlt' := not_le.mp hlt
            exact ⟨hlt', hloop.2.1, fun _ => hloop.2.2.1 hlt'⟩
      case _ =>
        by_cases hb : m.is_beyond = true
        · rw [if_pos hb] at hok
          have hsv : 0 ≤ sv := le_of_not_lt (fun hx => hbneg ⟨hb, hx⟩)
          split at hok <;>
            (simp only [Except.ok.injEq] at hok
             subst hok
             dsimp only [StateInv]
             refine ⟨?_, ?_, fun hx => absurd hb (by rw [hx]; simp)⟩)
          · have := hwf.1
            omega
          · split_ifs
            · linarith [hinv.2.1]
            · exact hwf.2.2
          · rename_i hlt
            exact not_le.mp hlt
          · split_ifs
            · linarith [hinv.2.1]
            · exact hwf.2.2
        · rw [if_neg hb] at hok
          have hloop := climbLoop_inv m.steps false hwf.2.1
            (m.steps.length + 1) s.curr_position s.curr_capture sv
            (by omega)
            ⟨le_of_lt hinv.1, hinv.2.1,
              fun _ => hinv.2.2 (by simpa using hb),
              fun hx => absurd hx (by have := hinv.1; omega)⟩
          split at hok <;>
            (simp only [Except.ok.injEq] at hok
             subst hok
             dsimp only [StateInv])
          · exact ⟨by have := hwf.1; omega, le_rfl, fun _ => Or.inl rfl⟩
          · rename_i hlt
            have hlt' := not_le.mp hlt
            exact ⟨hlt', hloop.2.1, fun _ => hloop.2.2.1 hlt'⟩

/-- C3, counterexample: on an ordinary 5-step map, a user whose
`lephon_nell_state` is `1` (set by an earlier play on the `lephon_nell`
map) climbs once; the phase-2 teleport at `world.py` line 532 runs with
no check that the current map is `lephon_nell` and puts them at
`(44, 1)`, so the reachable state violates
`0 ≤ curr_position < step_count`. -/
theorem C3_invariant_cex :
    Reachable ⟨false, 0, [.plain 1, .plain 1, .plain 1, .plain 1,
        .plain 1], ""⟩ ⟨44, 1, false⟩ ∧
    ¬ StateInv ⟨false, 0, [.plain 1, .plain 1, .plain 1, .plain 1,
        .plain 1], ""⟩ ⟨44, 1, false⟩ := by
  constructor
  · have h1 : Reachable ⟨false, 0, [.plain 1, .plain 1, .plain 1,
        .plain 1, .plain 1], ""⟩ ⟨0, 0, true⟩ := .init
    have h2 := Reachable.unlockStep ⟨0, 0, true⟩ true h1
    rw [show unlockOp ⟨false, 0, [.plain 1, .plain 1, .plain 1, .plain 1,
        .plain 1], ""⟩ true ⟨0, 0, true⟩ = ⟨0, 0, false⟩ by
      norm_num [unlockOp]] at h2
    exact Reachable.climbStep ⟨0, 0, false⟩ ⟨44, 1, false⟩ 1 ⟨1, false⟩ 0
      h2 (by norm_num [climb, Step.plain])
  · intro hinv
    have := hinv.1
    norm_num [StateInv] at this

/-- C3, amended: the claimed invariant (`0 ≤ curr_position < step_count`,
`curr_capture ≥ 0`, and on normal maps
`curr_capture < steps[curr_position].capture` unless at the last step)
holds for every state reachable by select, unlock, climb and reclimb on a
well-formed map other than `lephon_nell` (at least one step, positive
captures, nonnegative beyond health), provided every climb happens while
the user's `lephon_nell_state` is `0`; climbs made in lephon phases 1-3
can teleport or recoil the user to states that break it. -/
theorem C3_invariant_amended (m : WorldMap) (s : UserMapState)
    (hwf : WellFormedMap m) (hr : ReachableNoLephon m s) : StateInv m s := by
  induction hr with
  | init =>
    exact ⟨hwf.1, le_rfl,
      fun _ => Or.inr (hwf.2.1 _ (getD_mem m.steps 0 hwf.1))⟩
  | unlockStep s owned hr ih =>
    rw [unlockOp]
    split_ifs
    · exact ⟨hwf.1, le_rfl,
        fun _ => Or.inr (hwf.2.1 _ (getD_mem m.steps 0 hwf.1))⟩
    · exact ih
  | climbStep s s' p sv hr hok ih =>
    exact climb_preserves_inv m p sv s s' hwf ih hok

/-- C3, witness: the invariant at a concrete reachable state: unlock,
then climb half a tile on a 3-step map with captures `[2, 3, 4]`. -/
theorem C3_invariant_witness :
    StateInv ⟨false, 0, [.plain 2, .plain 3, .plain 4], ""⟩
      ⟨0, 1/2, false⟩ := by
  apply C3_invariant_amended
  · refine ⟨by norm_num, ?_, by norm_num⟩
    intro st hst
    simp [Step.plain] at hst
    rcases hst with h | h | h <;> subst h <;> norm_num
  · have h1 : ReachableNoLephon ⟨false, 0, [.plain 2, .plain 3,
        .plain 4], ""⟩ ⟨0, 0, true⟩ := .init
    have h2 := ReachableNoLephon.unlockStep ⟨0, 0, true⟩ true h1
    rw [show unlockOp ⟨false, 0, [.plain 2, .plain 3, .plain 4], ""⟩ true
        ⟨0, 0, true⟩ = ⟨0, 0, false⟩ by norm_num [unlockOp]] at h2
    exact ReachableNoLephon.climbStep ⟨0, 0, false⟩ ⟨0, 1/2, false⟩
      ⟨1, false⟩ (1/2) h2 (by norm_num [climb, climbLoop, Step.plain])

end Arcaea
